import Mathlib

/- Verification development for the TELS naming / forecast logic.

   Modelling conventions (shallow embedding of the Python source):
   * Python strings are `List Char`; `None` string arguments coincide with
     `""` after the source's `(s or "")` guards, so both are `[]`.
   * Case folding (`str.lower`, Django `iexact` / `iregex` with the
     case-insensitive flag) is modelled with `Char.toLower`, i.e. ASCII
     case folding.
   * The set of materials of one TEP code is the ordered list of rows,
     list order = primary-key (`id`) order; creating a row appends.
   * `float` amounts are modelled as rationals; a JSON field value on
     which `float(x or 0)` raises is modelled as `none`. -/

set_option maxHeartbeats 1000000

namespace TELS

/-! ### Character-level facts -/

/-- Whitespace as matched by Python's `str.strip` / `\s` (ASCII part):
space, tab, newline, carriage return, vertical tab, form feed. -/
def pyIsSpace (c : Char) : Bool :=
  c.toNat = 32 || c.toNat = 9 || c.toNat = 10 || c.toNat = 13 || c.toNat = 11 || c.toNat = 12

/-- Decimal digit as matched by `\d` (ASCII part) and accepted by `int`. -/
def pyIsDigit (c : Char) : Bool :=
  48 ≤ c.toNat && c.toNat ≤ 57

theorem char_toNat_inj {c d : Char} (h : c.toNat = d.toNat) : c = d := by
  apply Char.ext
  exact UInt32.ext h

theorem toLower_spec (c : Char) :
    Char.toLower c = c ∨
      (65 ≤ c.toNat ∧ c.toNat ≤ 90 ∧ (Char.toLower c).toNat = c.toNat + 32) := by
  unfold Char.toLower
  by_cases h : c.toNat ≥ 65 ∧ c.toNat ≤ 90
  · right
    refine ⟨h.1, h.2, ?_⟩
    rw [if_pos h]
    have hv : (c.toNat + 32).isValidChar := Or.inl (by omega)
    rw [Char.ofNat, dif_pos hv]
    simp [Char.ofNatAux, Char.toNat, UInt32.toNat]
  · left
    rw [if_neg h]

theorem pyIsSpace_toLower (c : Char) : pyIsSpace (Char.toLower c) = pyIsSpace c := by
  rcases toLower_spec c with h | ⟨h1, h2, h3⟩
  · rw [h]
  · have ha : pyIsSpace (Char.toLower c) = false := by
      simp only [pyIsSpace, h3, Bool.or_eq_false_iff, decide_eq_false_iff_not]
      omega
    have hb : pyIsSpace c = false := by
      simp only [pyIsSpace, Bool.or_eq_false_iff, decide_eq_false_iff_not]
      omega
    rw [ha, hb]

theorem pyIsDigit_toLower (c : Char) : pyIsDigit (Char.toLower c) = pyIsDigit c := by
  rcases toLower_spec c with h | ⟨h1, h2, h3⟩
  · rw [h]
  · have ha : pyIsDigit (Char.toLower c) = false := by
      simp only [pyIsDigit, h3, Bool.and_eq_false_iff, decide_eq_false_iff_not]
      omega
    have hb : pyIsDigit c = false := by
      simp only [pyIsDigit, Bool.and_eq_false_iff, decide_eq_false_iff_not]
      omega
    rw [ha, hb]

theorem toLower_eq_of_small {c d : Char} (hd : d.toNat < 97)
    (h : Char.toLower c = d) : c = d := by
  rcases toLower_spec c with h' | ⟨h1, h2, h3⟩
  · rw [← h', h]
  · exfalso
    rw [h] at h3
    omega

theorem toLower_eq_space {c : Char} (h : Char.toLower c = ' ') : c = ' ' := by
  apply toLower_eq_of_small (by decide) h

theorem pyIsDigit_not_space {c : Char} (h : pyIsDigit c = true) : pyIsSpace c = false := by
  simp only [pyIsDigit, Bool.and_eq_true, decide_eq_true_eq] at h
  simp only [pyIsSpace, Bool.or_eq_false_iff, decide_eq_false_iff_not]
  omega

theorem toLower_digit {c : Char} (h : pyIsDigit c = true) : Char.toLower c = c := by
  rcases toLower_spec c with h' | ⟨h1, h2, h3⟩
  · exact h'
  · exfalso
    simp only [pyIsDigit, Bool.and_eq_true, decide_eq_true_eq] at h
    omega

/-! ### Python string primitives -/

/-- Python `str.strip()`: drop leading and trailing whitespace. -/
def pystrip (l : List Char) : List Char :=
  ((l.dropWhile pyIsSpace).reverse.dropWhile pyIsSpace).reverse

/-- Truthiness-based `a or b` on Python strings. -/
def pyor (a b : List Char) : List Char :=
  if a = [] then b else a

/-- Python `str.lower()` (ASCII model). -/
def lowerStr (l : List Char) : List Char :=
  l.map Char.toLower

theorem length_dropWhile_le' (p : Char → Bool) (l : List Char) :
    (l.dropWhile p).length ≤ l.length := by
  induction l with
  | nil => simp
  | cons c rest ih =>
    rw [List.dropWhile_cons]
    split
    · exact Nat.le_trans ih (Nat.le_succ _)
    · simp

/-- Worker for `collapseWs`; the flag records whether the previous
character belonged to a whitespace run already emitted as one space. -/
def collapseGo : Bool → List Char → List Char
  | _, [] => []
  | afterWs, c :: rest =>
    if pyIsSpace c then
      if afterWs then collapseGo true rest else ' ' :: collapseGo true rest
    else c :: collapseGo false rest

/-- Body of `re.sub(r"\s+", " ", ·)`: collapse every whitespace run to one space. -/
def collapseWs (l : List Char) : List Char :=
  collapseGo false l

theorem collapseGo_true_eq (rest : List Char) :
    collapseGo true rest = collapseGo false (rest.dropWhile pyIsSpace) := by
  induction rest with
  | nil => rfl
  | cons c r ih =>
    by_cases hc : pyIsSpace c = true
    · rw [List.dropWhile_cons, if_pos hc, ← ih]
      rw [collapseGo, if_pos hc, if_pos rfl]
    · rw [Bool.not_eq_true] at hc
      rw [List.dropWhile_cons, if_neg (by simp [hc])]
      rw [collapseGo, if_neg (by simp [hc])]
      conv_rhs => rw [collapseGo]
      rw [if_neg (by simp [hc])]

/-- Model of `_normalize_space`: `re.sub(r"\s+", " ", (s or "").strip())`. -/
def normSpace (l : List Char) : List Char :=
  collapseWs (pystrip l)

/-! ### Decimal digits (`f"{base} {i}"` rendering and `int` parsing) -/

/-- Decimal digit character for `d < 10`. -/
def digitChar (d : Nat) : Char :=
  if d = 0 then '0' else if d = 1 then '1' else if d = 2 then '2' else if d = 3 then '3'
  else if d = 4 then '4' else if d = 5 then '5' else if d = 6 then '6' else if d = 7 then '7'
  else if d = 8 then '8' else '9'

/-- Worker for `natDigits`, structurally recursive on a fuel bound. -/
def natDigitsGo : Nat → Nat → List Char
  | 0, n => [digitChar n]
  | fuel + 1, n =>
    if n < 10 then [digitChar n]
    else natDigitsGo fuel (n / 10) ++ [digitChar (n % 10)]

/-- Decimal rendering of a natural number, as Python's `str(i)` produces. -/
def natDigits (n : Nat) : List Char :=
  natDigitsGo n n

theorem natDigitsGo_congr : ∀ fuel1 : Nat, ∀ fuel2 n : Nat, n ≤ fuel1 → n ≤ fuel2 →
    natDigitsGo fuel1 n = natDigitsGo fuel2 n
  | 0, fuel2, n, h1, _ => by
    have hn : n = 0 := by omega
    subst hn
    cases fuel2 with
    | zero => rfl
    | succ f2 => simp [natDigitsGo]
  | fuel1 + 1, 0, n, _, h2 => by
    have hn : n = 0 := by omega
    subst hn
    simp [natDigitsGo]
  | fuel1 + 1, fuel2 + 1, n, h1, h2 => by
    by_cases hn : n < 10
    · rw [natDigitsGo]
      rw [if_pos hn]
      conv_rhs => rw [natDigitsGo]
      rw [if_pos hn]
    · rw [natDigitsGo]
      rw [if_neg hn]
      conv_rhs => rw [natDigitsGo]
      rw [if_neg hn]
      have hlt : n / 10 < n := Nat.div_lt_self (by omega) (by omega)
      rw [natDigitsGo_congr fuel1 fuel2 (n / 10) (by omega) (by omega)]

/-- Unfolding equation for `natDigits` matching the mathematical recursion. -/
theorem natDigits_eq (n : Nat) :
    natDigits n = if n < 10 then [digitChar n] else natDigits (n / 10) ++ [digitChar (n % 10)] := by
  unfold natDigits
  by_cases hn : n < 10
  · rw [if_pos hn]
    cases n with
    | zero => rfl
    | succ m =>
      rw [natDigitsGo]
      rw [if_pos hn]
  · rw [if_neg hn]
    cases n with
    | zero => omega
    | succ m =>
      rw [natDigitsGo]
      rw [if_neg hn]
      have hlt : (m + 1) / 10 < m + 1 := Nat.div_lt_self (by omega) (by omega)
      rw [natDigitsGo_congr m ((m + 1) / 10) ((m + 1) / 10) (by omega) (by omega)]

/-- Value of a run of decimal digit characters (`int` on a digit string). -/
def digitsToNat (l : List Char) : Nat :=
  l.foldl (fun a c => a * 10 + (c.toNat - 48)) 0

theorem digitChar_toNat {d : Nat} (h : d < 10) : (digitChar d).toNat = 48 + d := by
  interval_cases d <;> decide

theorem digitChar_isDigit {d : Nat} (h : d < 10) : pyIsDigit (digitChar d) = true := by
  interval_cases d <;> decide

theorem natDigits_all_digit (n : Nat) : (natDigits n).all pyIsDigit = true := by
  rw [natDigits_eq]
  split
  · simp [List.all_cons, digitChar_isDigit (by omega : n < 10)]
  · rename_i h
    have ih := natDigits_all_digit (n / 10)
    simp only [List.all_append, ih, List.all_cons, List.all_nil,
      digitChar_isDigit (Nat.mod_lt n (by omega) : n % 10 < 10), Bool.and_self, Bool.true_and]
termination_by n
decreasing_by
  exact Nat.div_lt_self (by omega) (by omega)

theorem natDigits_ne_nil (n : Nat) : natDigits n ≠ [] := by
  rw [natDigits_eq]
  split
  · simp
  · simp

theorem natDigits_foldl (n : Nat) (a : Nat) :
    (natDigits n).foldl (fun a c => a * 10 + (c.toNat - 48)) a =
      a * 10 ^ (natDigits n).length + n := by
  rw [natDigits_eq]
  split
  · rename_i h
    simp [List.foldl_cons, digitChar_toNat h]
  · rename_i h
    have ih := natDigits_foldl (n / 10) a
    rw [List.foldl_append, ih]
    simp only [List.foldl_cons, List.foldl_nil, List.length_append, List.length_cons,
      List.length_nil, digitChar_toNat (Nat.mod_lt n (by omega) : n % 10 < 10)]
    have h48 : 48 + n % 10 - 48 = n % 10 := by omega
    rw [h48, pow_succ]
    have hdm : n / 10 * 10 + n % 10 = n := by omega
    have hring : (a * 10 ^ (natDigits (n / 10)).length + n / 10) * 10 + n % 10 =
        a * (10 ^ (natDigits (n / 10)).length * 10) + (n / 10 * 10 + n % 10) := by ring
    rw [hring, hdm]
termination_by n
decreasing_by
  exact Nat.div_lt_self (by omega) (by omega)

theorem digitsToNat_natDigits (n : Nat) : digitsToNat (natDigits n) = n := by
  have := natDigits_foldl n 0
  simpa [digitsToNat] using this

theorem natDigits_inj {m n : Nat} (h : natDigits m = natDigits n) : m = n := by
  have hm := digitsToNat_natDigits m
  have hn := digitsToNat_natDigits n
  rw [h] at hm
  omega

theorem lowerStr_digits {ds : List Char} (h : ds.all pyIsDigit = true) : lowerStr ds = ds := by
  induction ds with
  | nil => rfl
  | cons c rest ih =>
    simp only [List.all_cons, Bool.and_eq_true] at h
    simp only [lowerStr, List.map_cons]
    rw [toLower_digit h.1]
    have := ih h.2
    simp only [lowerStr] at this
    rw [this]

/-! ### Properties of `pystrip` and `normSpace` -/

/-- Does the list avoid starting with a whitespace character? -/
def headOk (l : List Char) : Bool :=
  match l.head? with
  | none => true
  | some c => !pyIsSpace c

theorem headOk_nil : headOk [] = true := rfl

theorem headOk_cons {c : Char} {l : List Char} : headOk (c :: l) = !pyIsSpace c := rfl

theorem dropWhile_eq_self_of_headOk {l : List Char} (h : headOk l = true) :
    l.dropWhile pyIsSpace = l := by
  cases l with
  | nil => rfl
  | cons c rest =>
    rw [headOk_cons, Bool.not_eq_true'] at h
    rw [List.dropWhile_cons, if_neg (by simp [h])]

theorem headOk_dropWhile (l : List Char) : headOk (l.dropWhile pyIsSpace) = true := by
  induction l with
  | nil => rfl
  | cons c rest ih =>
    rw [List.dropWhile_cons]
    split
    · exact ih
    · rename_i h
      rw [headOk_cons, Bool.not_eq_true']
      exact Bool.not_eq_true _ ▸ (by simpa using h)

theorem headOk_append_left {x y : List Char} (hx : x ≠ []) :
    headOk (x ++ y) = headOk x := by
  cases x with
  | nil => exact absurd rfl hx
  | cons c rest => rfl

theorem pystrip_headOk (l : List Char) : headOk (pystrip l) = true := by
  unfold pystrip
  set A := l.dropWhile pyIsSpace with hA
  have hsplit : A.reverse.takeWhile pyIsSpace ++ A.reverse.dropWhile pyIsSpace = A.reverse :=
    List.takeWhile_append_dropWhile ..
  have hAhead : headOk A = true := headOk_dropWhile l
  set y := A.reverse.dropWhile pyIsSpace with hy
  have hAeq : A = y.reverse ++ (A.reverse.takeWhile pyIsSpace).reverse := by
    have := congrArg List.reverse hsplit
    simpa [List.reverse_append] using this.symm
  by_cases hynil : y.reverse = []
  · rw [hynil]
    rfl
  · rw [hAeq, headOk_append_left hynil] at hAhead
    exact hAhead

theorem pystrip_revHeadOk (l : List Char) : headOk (pystrip l).reverse = true := by
  unfold pystrip
  rw [List.reverse_reverse]
  exact headOk_dropWhile _

theorem pystrip_eq_self_of {l : List Char} (h1 : headOk l = true)
    (h2 : headOk l.reverse = true) : pystrip l = l := by
  unfold pystrip
  rw [dropWhile_eq_self_of_headOk h1, dropWhile_eq_self_of_headOk h2, List.reverse_reverse]

theorem pystrip_idem (l : List Char) : pystrip (pystrip l) = pystrip l :=
  pystrip_eq_self_of (pystrip_headOk l) (pystrip_revHeadOk l)

theorem headOk_lowerStr (l : List Char) : headOk (lowerStr l) = headOk l := by
  cases l with
  | nil => rfl
  | cons c rest =>
    simp only [lowerStr, List.map_cons, headOk_cons, pyIsSpace_toLower]

theorem headOk_of_all_digits {l : List Char} (h : l.all pyIsDigit = true) :
    headOk l = true := by
  cases l with
  | nil => rfl
  | cons c rest =>
    simp only [List.all_cons, Bool.and_eq_true] at h
    rw [headOk_cons, pyIsDigit_not_space h.1]
    rfl

/-- Every whitespace character in the list is a plain space not followed by
more whitespace: the normal form produced by `collapseWs`. -/
def singleSpaced : List Char → Bool
  | [] => true
  | c :: rest => (if pyIsSpace c then decide (c = ' ') && headOk rest else true) && singleSpaced rest

theorem collapseWs_nil : collapseWs [] = [] := rfl

theorem collapseWs_cons_space {c : Char} {rest : List Char} (h : pyIsSpace c = true) :
    collapseWs (c :: rest) = ' ' :: collapseWs (rest.dropWhile pyIsSpace) := by
  unfold collapseWs
  rw [collapseGo, if_pos h, if_neg (by simp), collapseGo_true_eq]

theorem collapseWs_cons_nonspace {c : Char} {rest : List Char} (h : pyIsSpace c = false) :
    collapseWs (c :: rest) = c :: collapseWs rest := by
  unfold collapseWs
  rw [collapseGo, if_neg (by simp [h])]

theorem collapseWs_ne_nil {l : List Char} (h : l ≠ []) : collapseWs l ≠ [] := by
  cases l with
  | nil => exact absurd rfl h
  | cons c rest =>
    by_cases hc : pyIsSpace c = true
    · rw [collapseWs_cons_space hc]
      simp
    · rw [collapseWs_cons_nonspace (by simpa using hc)]
      simp

theorem headOk_collapseWs {l : List Char} (h : headOk l = true) :
    headOk (collapseWs l) = true := by
  cases l with
  | nil => rw [collapseWs_nil]; rfl
  | cons c rest =>
    rw [headOk_cons] at h
    rw [collapseWs_cons_nonspace (by simpa using h), headOk_cons]
    exact h

theorem singleSpaced_collapseWs : ∀ l : List Char, singleSpaced (collapseWs l) = true
  | [] => by rw [collapseWs_nil]; rfl
  | c :: rest => by
    by_cases hc : pyIsSpace c = true
    · rw [collapseWs_cons_space hc]
      have h1 : singleSpaced (collapseWs (rest.dropWhile pyIsSpace)) = true :=
        singleSpaced_collapseWs (rest.dropWhile pyIsSpace)
      have h2 : headOk (collapseWs (rest.dropWhile pyIsSpace)) = true :=
        headOk_collapseWs (headOk_dropWhile rest)
      simp [singleSpaced, h1, h2]
    · rw [collapseWs_cons_nonspace (by simpa using hc)]
      have h1 : singleSpaced (collapseWs rest) = true := singleSpaced_collapseWs rest
      simp [singleSpaced, h1, hc]
termination_by l => l.length
decreasing_by
  · have := length_dropWhile_le' pyIsSpace rest
    simp only [List.length_cons]
    omega
  · simp

theorem collapseWs_eq_self_of_singleSpaced {l : List Char} (h : singleSpaced l = true) :
    collapseWs l = l := by
  induction l with
  | nil => exact collapseWs_nil
  | cons c rest ih =>
    simp only [singleSpaced, Bool.and_eq_true] at h
    by_cases hc : pyIsSpace c = true
    · rw [if_pos hc, Bool.and_eq_true, decide_eq_true_eq] at h
      rw [collapseWs_cons_space hc, dropWhile_eq_self_of_headOk h.1.2, ih h.2, h.1.1]
    · rw [collapseWs_cons_nonspace (by simpa using hc)]
      rw [ih h.2]

theorem collapseWs_idem (l : List Char) : collapseWs (collapseWs l) = collapseWs l :=
  collapseWs_eq_self_of_singleSpaced (singleSpaced_collapseWs l)

theorem revHeadOk_collapseWs : ∀ l : List Char, headOk l.reverse = true →
    headOk (collapseWs l).reverse = true
  | [], _ => by rw [collapseWs_nil]; rfl
  | c :: rest, h => by
    by_cases hc : pyIsSpace c = true
    · rw [collapseWs_cons_space hc]
      have hrestnil : rest ≠ [] := by
        intro hr
        subst hr
        simp [headOk_cons, hc] at h
      have hrev : headOk rest.reverse = true := by
        have : (c :: rest).reverse = rest.reverse ++ [c] := by simp
        rw [this, headOk_append_left (by simpa using hrestnil)] at h
        exact h
      set r := rest.dropWhile pyIsSpace with hr
      have hrnil : r ≠ [] := by
        intro hrn
        have hsplit : rest.takeWhile pyIsSpace ++ r = rest := List.takeWhile_append_dropWhile ..
        rw [hrn, List.append_nil] at hsplit
        have hall : ∀ x ∈ rest, pyIsSpace x = true := by
          intro x hx
          rw [← hsplit] at hx
          exact List.mem_takeWhile_imp hx
        cases hre : rest.reverse with
        | nil => exact hrestnil (by simpa using hre)
        | cons d tl =>
          have hd : d ∈ rest := by
            have : d ∈ rest.reverse := by rw [hre]; exact List.mem_cons_self ..
            simpa using this
          rw [hre, headOk_cons, Bool.not_eq_true', hall d hd] at hrev
          cases hrev
      have hrrev : headOk r.reverse = true := by
        have hsplit : rest.takeWhile pyIsSpace ++ r = rest := List.takeWhile_append_dropWhile ..
        have hre : rest.reverse = r.reverse ++ (rest.takeWhile pyIsSpace).reverse := by
          conv_lhs => rw [← hsplit]
          rw [List.reverse_append]
        rw [hre, headOk_append_left (by simpa using hrnil)] at hrev
        exact hrev
      have ih := revHeadOk_collapseWs r hrrev
      have hcne : collapseWs r ≠ [] := collapseWs_ne_nil hrnil
      have : (' ' :: collapseWs r).reverse = (collapseWs r).reverse ++ [' '] := by simp
      rw [this, headOk_append_left (by simpa using hcne)]
      exact ih
    · rw [collapseWs_cons_nonspace (by simpa using hc)]
      cases hrest : rest with
      | nil =>
        rw [collapseWs_nil]
        simp [headOk_cons, hc]
      | cons d tl =>
        have hrestnil : rest ≠ [] := by rw [hrest]; simp
        have hrev : headOk rest.reverse = true := by
          have : (c :: rest).reverse = rest.reverse ++ [c] := by simp
          rw [this, headOk_append_left (by simpa using hrestnil)] at h
          exact h
        rw [← hrest]
        have ih := revHeadOk_collapseWs rest hrev
        have hcne : collapseWs rest ≠ [] := collapseWs_ne_nil hrestnil
        have heq : (c :: collapseWs rest).reverse = (collapseWs rest).reverse ++ [c] := by simp
        rw [heq, headOk_append_left (by simpa using hcne)]
        exact ih
termination_by l => l.length
decreasing_by
  · have := length_dropWhile_le' pyIsSpace rest
    simp only [List.length_cons]
    omega
  · simp

theorem singleSpaced_of_no_ws {l : List Char} (h : ∀ c ∈ l, pyIsSpace c = false) :
    singleSpaced l = true := by
  induction l with
  | nil => rfl
  | cons c rest ih =>
    simp only [singleSpaced, Bool.and_eq_true]
    refine ⟨?_, ih fun x hx => h x (List.mem_cons_of_mem _ hx)⟩
    rw [if_neg (by simp [h c (List.mem_cons_self ..)])]

theorem singleSpaced_append_digits : ∀ y : List Char, ∀ ds : List Char,
    singleSpaced y = true → headOk y.reverse = true → y ≠ [] → ds ≠ [] →
    ds.all pyIsDigit = true → singleSpaced (y ++ ' ' :: ds) = true
  | [], _, _, _, hy, _, _ => absurd rfl hy
  | [a], ds, _, hrev, _, hds, hd => by
    have ha : pyIsSpace a = false := by
      simp only [List.reverse_singleton, headOk_cons, Bool.not_eq_true'] at hrev
      exact hrev
    have hSSds : singleSpaced ds = true := by
      refine singleSpaced_of_no_ws fun c hc => ?_
      exact pyIsDigit_not_space (by simpa using List.all_eq_true.mp hd c hc)
    have hheadds : headOk ds = true := headOk_of_all_digits hd
    simp [singleSpaced, ha, hSSds, hheadds]
  | a :: b :: y', ds, hss, hrev, _, hds, hd => by
    rw [singleSpaced, Bool.and_eq_true] at hss
    have hrev' : headOk (b :: y').reverse = true := by
      have hbne : (b :: y').reverse ≠ [] := by simp
      have heq : (a :: b :: y').reverse = (b :: y').reverse ++ [a] := by simp
      rw [heq, headOk_append_left hbne] at hrev
      exact hrev
    have ih := singleSpaced_append_digits (b :: y') ds hss.2 hrev' (by simp) hds hd
    rw [List.cons_append, singleSpaced, Bool.and_eq_true]
    exact ⟨hss.1, ih⟩

theorem normSpace_headOk (l : List Char) : headOk (normSpace l) = true :=
  headOk_collapseWs (pystrip_headOk l)

theorem normSpace_revHeadOk (l : List Char) : headOk (normSpace l).reverse = true :=
  revHeadOk_collapseWs _ (pystrip_revHeadOk l)

theorem normSpace_idem (l : List Char) : normSpace (normSpace l) = normSpace l := by
  unfold normSpace
  rw [show pystrip (collapseWs (pystrip l)) = collapseWs (pystrip l) from
    pystrip_eq_self_of (normSpace_headOk l) (normSpace_revHeadOk l)]
  exact collapseWs_idem _

theorem revHeadOk_append_digits {y ds : List Char} (hds : ds ≠ [])
    (hd : ds.all pyIsDigit = true) : headOk (y ++ ' ' :: ds).reverse = true := by
  rw [List.reverse_append, List.reverse_cons, List.append_assoc]
  rw [headOk_append_left (by simpa using hds)]
  exact headOk_of_all_digits (by simpa using hd)

theorem normSpace_append_digits (x ds : List Char) (hy : normSpace x ≠ [])
    (hds : ds ≠ []) (hd : ds.all pyIsDigit = true) :
    normSpace (normSpace x ++ ' ' :: ds) = normSpace x ++ ' ' :: ds := by
  have h1 : headOk (normSpace x ++ ' ' :: ds) = true := by
    rw [headOk_append_left hy]
    exact normSpace_headOk x
  have h2 : headOk (normSpace x ++ ' ' :: ds).reverse = true :=
    revHeadOk_append_digits hds hd
  have hstrip : pystrip (normSpace x ++ ' ' :: ds) = normSpace x ++ ' ' :: ds :=
    pystrip_eq_self_of h1 h2
  show collapseWs (pystrip (normSpace x ++ ' ' :: ds)) = _
  rw [hstrip]
  exact collapseWs_eq_self_of_singleSpaced
    (singleSpaced_append_digits (normSpace x) ds
      (by unfold normSpace; exact singleSpaced_collapseWs _) (normSpace_revHeadOk x) hy hds hd)

theorem pystrip_append_digits {y ds : List Char} (h1 : headOk y = true) (hy : y ≠ [])
    (hds : ds ≠ []) (hd : ds.all pyIsDigit = true) :
    pystrip (y ++ ' ' :: ds) = y ++ ' ' :: ds := by
  refine pystrip_eq_self_of ?_ (revHeadOk_append_digits hds hd)
  rw [headOk_append_left hy]
  exact h1

/-! ### The allocator's pattern

The source matches stored names against the anchored, case-insensitive
pattern `^base( \d+)?$` in which `base` is inserted through `re.escape`,
so every character of `base` is a literal.  `chewLit` consumes the literal
part case-insensitively; `patMatch` then accepts an empty remainder or one
space followed by a digit run (`( \d+)?$`), and `numOf` extracts the value
of the digit group exactly as `re.match(...).group(1)` plus `int` does. -/


def chewLit : List Char → List Char → Option (List Char)
  | [], s => some s
  | _ :: _, [] => none
  | b :: bs, c :: cs => if Char.toLower c = Char.toLower b then chewLit bs cs else none

def patMatch (base n : List Char) : Bool :=
  match chewLit base n with
  | some [] => true
  | some (c :: ds) => decide (c = ' ') && (!ds.isEmpty && ds.all pyIsDigit)
  | none => false

def numOf (base n : List Char) : Option Nat :=
  match chewLit base n with
  | some (c :: ds) =>
    if c = ' ' ∧ ds ≠ [] ∧ ds.all pyIsDigit = true then some (digitsToNat ds) else none
  | _ => none

theorem chew_sound : ∀ base n r : List Char, chewLit base n = some r →
    lowerStr n = lowerStr base ++ lowerStr r
  | [], n, r => by
    intro h
    simp only [chewLit, Option.some_inj] at h
    subst h
    simp [lowerStr]
  | b :: bs, [], r => by
    intro h
    simp [chewLit] at h
  | b :: bs, c :: cs, r => by
    intro h
    simp only [chewLit] at h
    split at h
    · rename_i hlow
      have ih := chew_sound bs cs r h
      simp only [lowerStr, List.map_cons] at ih ⊢
      rw [hlow, ih]
      rfl
    · cases h

theorem chew_complete : ∀ base n t : List Char, lowerStr n = lowerStr base ++ t →
    ∃ r, chewLit base n = some r ∧ lowerStr r = t
  | [], n, t => by
    intro h
    exact ⟨n, rfl, by simpa [lowerStr] using h⟩
  | b :: bs, [], t => by
    intro h
    simp [lowerStr] at h
  | b :: bs, c :: cs, t => by
    intro h
    simp only [lowerStr, List.map_cons, List.cons_append, List.cons_eq_cons] at h
    obtain ⟨r, hr, hlr⟩ := chew_complete bs cs t (by simpa [lowerStr] using h.2)
    refine ⟨r, ?_, hlr⟩
    simp only [chewLit, if_pos h.1]
    exact hr

theorem lowerStr_digits_map {ds : List Char} (h : ds.all pyIsDigit = true) :
    List.map Char.toLower ds = ds := by
  have := lowerStr_digits h
  simpa [lowerStr] using this

theorem numOf_some_iff {base n : List Char} {k : Nat} :
    numOf base n = some k ↔
      ∃ ds : List Char, ds ≠ [] ∧ ds.all pyIsDigit = true ∧
        lowerStr n = lowerStr base ++ ' ' :: ds ∧ digitsToNat ds = k := by
  constructor
  · intro h
    unfold numOf at h
    split at h
    · rename_i r c ds hr
      split at h
      · rename_i hds
        obtain ⟨hsp, hne, hdig⟩ := hds
        subst hsp
        refine ⟨ds, hne, hdig, ?_, by simpa using h⟩
        have := chew_sound base n (' ' :: ds) hr
        rw [this]
        simp only [lowerStr, List.map_cons]
        rw [show Char.toLower ' ' = ' ' from rfl, lowerStr_digits_map hdig]
      · cases h
    · cases h
  · rintro ⟨ds, hne, hdig, hlow, hval⟩
    obtain ⟨r, hr, hlr⟩ := chew_complete base n (' ' :: ds) hlow
    cases r with
    | nil => simp [lowerStr] at hlr
    | cons c0 r' =>
      simp only [lowerStr, List.map_cons, List.cons_eq_cons] at hlr
      have hc0 : c0 = ' ' := toLower_eq_space hlr.1
      have hr'dig : r'.all pyIsDigit = true := by
        rw [List.all_eq_true]
        intro c hc
        have hmem : Char.toLower c ∈ ds := by
          rw [← hlr.2]
          exact List.mem_map_of_mem _ hc
        have := List.all_eq_true.mp hdig _ hmem
        rwa [pyIsDigit_toLower] at this
      have hr'ds : r' = ds := (lowerStr_digits_map hr'dig).symm.trans hlr.2
      subst hc0
      subst hr'ds
      unfold numOf
      rw [hr]
      simp [hne, hdig, hval]

theorem patMatch_iff {base n : List Char} :
    patMatch base n = true ↔
      lowerStr n = lowerStr base ∨
        ∃ ds : List Char, ds ≠ [] ∧ ds.all pyIsDigit = true ∧
          lowerStr n = lowerStr base ++ ' ' :: ds := by
  constructor
  · intro h
    unfold patMatch at h
    split at h
    · rename_i hr
      left
      have := chew_sound base n [] hr
      simpa [lowerStr] using this
    · rename_i r c ds hr
      right
      simp only [Bool.and_eq_true, decide_eq_true_eq, Bool.not_eq_true',
        List.isEmpty_eq_false] at h
      obtain ⟨hsp, hne, hdig⟩ := h
      subst hsp
      refine ⟨ds, hne, hdig, ?_⟩
      have := chew_sound base n (' ' :: ds) hr
      rw [this]
      simp only [lowerStr, List.map_cons]
      rw [show Char.toLower ' ' = ' ' from rfl, lowerStr_digits_map hdig]
    · cases h
  · intro h
    rcases h with h | ⟨ds, hne, hdig, hlow⟩
    · obtain ⟨r, hr, hlr⟩ := chew_complete base n [] (by simpa using h)
      have hrnil : r = [] := by simpa [lowerStr] using hlr
      subst hrnil
      unfold patMatch
      rw [hr]
    · obtain ⟨r, hr, hlr⟩ := chew_complete base n (' ' :: ds) hlow
      cases r with
      | nil => simp [lowerStr] at hlr
      | cons c0 r' =>
        simp only [lowerStr, List.map_cons, List.cons_eq_cons] at hlr
        have hc0 : c0 = ' ' := toLower_eq_space hlr.1
        have hr'dig : r'.all pyIsDigit = true := by
          rw [List.all_eq_true]
          intro c hc
          have hmem : Char.toLower c ∈ ds := by
            rw [← hlr.2]
            exact List.mem_map_of_mem _ hc
          have := List.all_eq_true.mp hdig _ hmem
          rwa [pyIsDigit_toLower] at this
        have hr'ds : r' = ds := (lowerStr_digits_map hr'dig).symm.trans hlr.2
        subst hc0
        subst hr'ds
        unfold patMatch
        rw [hr]
        simp only [Bool.and_eq_true, decide_eq_true_eq, Bool.not_eq_true',
          List.isEmpty_eq_false]
        exact ⟨trivial, hne, hdig⟩

theorem numOf_some_patMatch {base n : List Char} {k : Nat} (h : numOf base n = some k) :
    patMatch base n = true := by
  obtain ⟨ds, h1, h2, h3, _⟩ := numOf_some_iff.mp h
  exact patMatch_iff.mpr (Or.inr ⟨ds, h1, h2, h3⟩)

theorem patMatch_bare {base n : List Char} (h : patMatch base n = true)
    (hn : numOf base n = none) : lowerStr n = lowerStr base := by
  rcases patMatch_iff.mp h with h' | ⟨ds, h1, h2, h3⟩
  · exact h'
  · exfalso
    have : numOf base n = some (digitsToNat ds) :=
      numOf_some_iff.mpr ⟨ds, h1, h2, h3, rfl⟩
    rw [hn] at this
    cases this

theorem headOk_of_head_lower_eq {n m : List Char}
    (h : n.head?.map Char.toLower = m.head?.map Char.toLower) (hm : headOk m = true) :
    headOk n = true := by
  cases n with
  | nil => rfl
  | cons c cs =>
    cases m with
    | nil => simp at h
    | cons d ds =>
      have h' : Char.toLower c = Char.toLower d := by simpa using h
      rw [headOk_cons] at hm ⊢
      have h1 := pyIsSpace_toLower c
      have h2 := pyIsSpace_toLower d
      rw [← h1, h', h2]
      exact hm

theorem headOk_of_head_lower_digit {n : List Char} (d : Char)
    (h : n.head?.map Char.toLower = some d) (hd : pyIsDigit d = true) :
    headOk n = true := by
  cases n with
  | nil => simp at h
  | cons c cs =>
    have h' : Char.toLower c = d := by simpa using h
    rw [headOk_cons]
    have h1 := pyIsSpace_toLower c
    rw [← h1, h', pyIsDigit_not_space hd]
    rfl

theorem head_lower_eq_of_lowerStr {n m : List Char} (h : lowerStr n = lowerStr m) :
    n.head?.map Char.toLower = m.head?.map Char.toLower := by
  have := congrArg List.head? h
  simpa [lowerStr] using this

theorem lowerStr_reverse (l : List Char) : lowerStr l.reverse = (lowerStr l).reverse := by
  simp [lowerStr]

/-- Any stored name matched by the allocator's pattern (for a stripped,
nonempty base) is itself free of leading and trailing whitespace, so the
`strip` the source applies before `re.match` is the identity on it. -/
theorem matched_pystrip {base n : List Char} (hb1 : headOk base = true)
    (hb2 : headOk base.reverse = true) (hb0 : base ≠ [])
    (h : patMatch base n = true) : pystrip n = n := by
  rcases patMatch_iff.mp h with hcase | ⟨ds, hne, hdig, hcase⟩
  · refine pystrip_eq_self_of ?_ ?_
    · exact headOk_of_head_lower_eq (head_lower_eq_of_lowerStr hcase) hb1
    · refine headOk_of_head_lower_eq (head_lower_eq_of_lowerStr ?_) hb2
      rw [lowerStr_reverse, lowerStr_reverse, hcase]
  · refine pystrip_eq_self_of ?_ ?_
    · have hx : (lowerStr base ++ ' ' :: ds).head? = (lowerStr base).head? := by
        rw [List.head?_append]
        cases hb : (lowerStr base).head? with
        | none =>
          exfalso
          rw [List.head?_eq_none_iff] at hb
          exact hb0 (by simpa [lowerStr] using hb)
        | some c => rfl
      refine headOk_of_head_lower_eq ?_ hb1
      have h1 := congrArg List.head? hcase
      rw [hx] at h1
      simpa [lowerStr] using h1
    · obtain ⟨d, ds', hds'⟩ : ∃ d ds', ds.reverse = d :: ds' := by
        cases hd : ds.reverse with
        | nil => exact absurd (by simpa using hd) hne
        | cons d ds' => exact ⟨d, ds', rfl⟩
      have hddig : pyIsDigit d = true := by
        have hmem : d ∈ ds := by
          have : d ∈ ds.reverse := by rw [hds']; exact List.mem_cons_self ..
          simpa using this
        exact List.all_eq_true.mp hdig _ hmem
      refine headOk_of_head_lower_digit d ?_ hddig
      have h1 : (lowerStr n).reverse = (ds.reverse ++ [' ']) ++ (lowerStr base).reverse := by
        rw [hcase, List.reverse_append, List.reverse_cons]
      have h2 : (lowerStr n).reverse.head? = some d := by
        rw [h1, List.append_assoc, List.head?_append, hds']
        rfl
      rw [← lowerStr_reverse] at h2
      simpa [lowerStr] using h2

/-! ### Material rows and `_allocate_material_name`

`Item` is one `Material` row of the TEP scope under consideration
(`mat_partcode`, `mat_partname`); the queryset filters of the source
become list filters, `order_by("id").first()` becomes the first list
element satisfying the predicate, and `first.save()` becomes an in-place
update of that element. -/

structure Item where
  mat_partcode : List Char
  mat_partname : List Char
deriving DecidableEq

/-- Base fallback `(base_name or "").strip() or "UNKNOWN"`. -/
def allocBase (base_name : List Char) : List Char :=
  pyor (pystrip base_name) "UNKNOWN".toList

/-- Exclusion `qs.exclude(mat_partcode=exclude_partcode)` applied only when the
stripped exclude code is nonempty. -/
def keepItem (excl : List Char) (it : Item) : Bool :=
  excl.isEmpty || decide (it.mat_partcode ≠ excl)

/-- Model of `existing_names`: names of rows matching the `iregex` pattern, minus
the excluded part code. -/
def matchedOf (items : List Item) (base excl : List Char) : List (List Char) :=
  (items.filter fun it => keepItem excl it && patMatch base it.mat_partname).map
    fun it => it.mat_partname

/-- Model of `numbers`: values of the digit group of `re.match` over the stripped
existing names. -/
def numbersOf (items : List Item) (base excl : List Char) : List Nat :=
  (matchedOf items base excl).filterMap fun n => numOf base (pystrip n)

/-- Predicate of the `mat_partname__iexact=base` queryset (with exclusion). -/
def renamePred (base excl : List Char) (it : Item) : Bool :=
  keepItem excl it && decide (lowerStr it.mat_partname = lowerStr base)

/-- Rename the first matching row (`order_by("id").first()` + `save`). -/
def renameFirst : List Item → (Item → Bool) → List Char → List Item
  | [], _, _ => []
  | it :: rest, p, nm =>
    if p it then { it with mat_partname := nm } :: rest
    else it :: renameFirst rest p nm

/-- Model of `_allocate_material_name`: returns the allocated display name and the
state of the scope after the branch-2 rename side effect. -/
def allocateMaterialName (items : List Item) (base_name exclude_partcode : List Char) :
    List Char × List Item :=
  let base := allocBase base_name
  let excl := pystrip exclude_partcode
  if (matchedOf items base excl).isEmpty then (base, items)
  else if (numbersOf items base excl).isEmpty then
    (base ++ ' ' :: ['2'], renameFirst items (renamePred base excl) (base ++ ' ' :: ['1']))
  else (base ++ ' ' :: natDigits ((numbersOf items base excl).foldl Nat.max 0 + 1), items)

/-- One allocation followed by storing the returned name on a new row
(`Material.objects.create`), as the spec's usage protocol prescribes. -/
def allocStep (items : List Item) (r : List Char × List Char) : List Item :=
  (allocateMaterialName items r.1 []).2 ++ [⟨r.2, (allocateMaterialName items r.1 []).1⟩]

/-- A sequence of allocate-and-store calls against one scope. -/
def runAlloc (items : List Item) (reqs : List (List Char × List Char)) : List Item :=
  reqs.foldl allocStep items

/-- Well-formed display name: stripped and nonempty (true of every name
the allocator returns or writes). -/
def wfName (n : List Char) : Prop :=
  pystrip n = n ∧ n ≠ []

instance : DecidablePred wfName := fun n => by
  unfold wfName
  infer_instance

/-- Scope invariant: display names are pairwise distinct under case
folding, and every stored name is stripped and nonempty. -/
def Inv (items : List Item) : Prop :=
  (items.map fun it => lowerStr it.mat_partname).Nodup ∧ ∀ it ∈ items, wfName it.mat_partname

instance : DecidablePred Inv := fun items => by
  unfold Inv
  infer_instance

theorem keepItem_nil (it : Item) : keepItem [] it = true := by
  simp [keepItem]

theorem allocBase_headOk (b : List Char) : headOk (allocBase b) = true := by
  unfold allocBase pyor
  split
  · decide
  · exact pystrip_headOk b

theorem allocBase_revHeadOk (b : List Char) : headOk (allocBase b).reverse = true := by
  unfold allocBase pyor
  split
  · decide
  · exact pystrip_revHeadOk b

theorem allocBase_ne_nil (b : List Char) : allocBase b ≠ [] := by
  unfold allocBase pyor
  split
  · decide
  · assumption

theorem allocBase_wf (b : List Char) : wfName (allocBase b) :=
  ⟨pystrip_eq_self_of (allocBase_headOk b) (allocBase_revHeadOk b), allocBase_ne_nil b⟩

theorem wf_base_append_digits {base ds : List Char} (hb : headOk base = true)
    (hb0 : base ≠ []) (hds : ds ≠ []) (hd : ds.all pyIsDigit = true) :
    wfName (base ++ ' ' :: ds) :=
  ⟨pystrip_append_digits hb hb0 hds hd, by simp⟩

theorem foldl_max_le_init (l : List Nat) (a : Nat) : a ≤ l.foldl Nat.max a := by
  induction l generalizing a with
  | nil => simp
  | cons c t ih =>
    simp only [List.foldl_cons]
    exact Nat.le_trans (Nat.le_max_left a c) (ih _)

theorem le_foldl_max {l : List Nat} {x : Nat} (hx : x ∈ l) :
    ∀ a : Nat, x ≤ l.foldl Nat.max a := by
  induction l with
  | nil => cases hx
  | cons c t ih =>
    intro a
    rcases List.mem_cons.mp hx with h | h
    · subst h
      simp only [List.foldl_cons]
      exact Nat.le_trans (Nat.le_max_right a x) (foldl_max_le_init t _)
    · simp only [List.foldl_cons]
      exact ih h _

theorem renameFirst_not_found {items : List Item} {p : Item → Bool} {nm : List Char}
    (h : ∀ it ∈ items, p it = false) : renameFirst items p nm = items := by
  induction items with
  | nil => rfl
  | cons it rest ih =>
    rw [renameFirst, if_neg]
    · rw [ih fun x hx => h x (List.mem_cons_of_mem _ hx)]
    · simp [h it (List.mem_cons_self ..)]

theorem renameFirst_found {items : List Item} {p : Item → Bool} {nm : List Char}
    (h : ∃ it ∈ items, p it = true) :
    ∃ l1 x l2, items = l1 ++ x :: l2 ∧ (∀ y ∈ l1, p y = false) ∧ p x = true ∧
      renameFirst items p nm = l1 ++ { x with mat_partname := nm } :: l2 := by
  induction items with
  | nil =>
    obtain ⟨it, hit, _⟩ := h
    cases hit
  | cons it rest ih =>
    by_cases hp : p it = true
    · exact ⟨[], it, rest, rfl, by simp, hp, by rw [renameFirst, if_pos hp]; rfl⟩
    · rw [Bool.not_eq_true] at hp
      have hrest : ∃ x ∈ rest, p x = true := by
        obtain ⟨x, hx, hpx⟩ := h
        rcases List.mem_cons.mp hx with rfl | hx'
        · rw [hp] at hpx
          cases hpx
        · exact ⟨x, hx', hpx⟩
      obtain ⟨l1, x, l2, heq, hl1, hpx, hres⟩ := ih hrest
      refine ⟨it :: l1, x, l2, by rw [heq]; rfl, ?_, hpx, ?_⟩
      · intro y hy
        rcases List.mem_cons.mp hy with rfl | hy'
        · exact hp
        · exact hl1 y hy'
      · rw [renameFirst, if_neg (by simp [hp]), hres]
        rfl

theorem renameFirst_map_code (items : List Item) (p : Item → Bool) (nm : List Char) :
    (renameFirst items p nm).map (fun it => it.mat_partcode) =
      items.map fun it => it.mat_partcode := by
  induction items with
  | nil => rfl
  | cons it rest ih =>
    rw [renameFirst]
    split
    · simp
    · simpa using ih

theorem numOf_none_of_not_match {base n : List Char} (h : patMatch base n = false) :
    numOf base n = none := by
  cases hn : numOf base n with
  | none => rfl
  | some k =>
    rw [numOf_some_patMatch hn] at h
    cases h

theorem matched_empty_not_match {items : List Item} {base excl : List Char}
    (h : (matchedOf items base excl).isEmpty = true)
    {it : Item} (hit : it ∈ items) (hk : keepItem excl it = true) :
    patMatch base it.mat_partname = false := by
  rw [List.isEmpty_iff] at h
  unfold matchedOf at h
  rw [List.map_eq_nil_iff, List.filter_eq_nil_iff] at h
  have := h it hit
  rw [Bool.and_eq_true, not_and] at this
  cases hp : patMatch base it.mat_partname with
  | false => rfl
  | true => exact absurd hp (this hk)

theorem name_mem_matched {items : List Item} {base excl : List Char} {it : Item}
    (hit : it ∈ items) (hk : keepItem excl it = true)
    (hp : patMatch base it.mat_partname = true) :
    it.mat_partname ∈ matchedOf items base excl := by
  unfold matchedOf
  exact List.mem_map_of_mem _ (List.mem_filter.mpr ⟨hit, by simp [hk, hp]⟩)

theorem numbers_empty_numOf {items : List Item} {base excl : List Char}
    (hwf : ∀ it ∈ items, wfName it.mat_partname)
    (h : (numbersOf items base excl).isEmpty = true)
    {it : Item} (hit : it ∈ items) (hk : keepItem excl it = true) :
    numOf base it.mat_partname = none := by
  cases hp : patMatch base it.mat_partname with
  | false => exact numOf_none_of_not_match hp
  | true =>
    rw [List.isEmpty_iff] at h
    unfold numbersOf at h
    rw [List.filterMap_eq_nil_iff] at h
    have hm := name_mem_matched hit hk hp
    have := h it.mat_partname hm
    rwa [(hwf it hit).1] at this

theorem mem_numbers {items : List Item} {base excl : List Char}
    (hwf : ∀ it ∈ items, wfName it.mat_partname)
    {it : Item} (hit : it ∈ items) (hk : keepItem excl it = true) {k : Nat}
    (hnum : numOf base it.mat_partname = some k) : k ∈ numbersOf items base excl := by
  have hp : patMatch base it.mat_partname = true := numOf_some_patMatch hnum
  unfold numbersOf
  rw [List.mem_filterMap]
  refine ⟨it.mat_partname, name_mem_matched hit hk hp, ?_⟩
  rwa [(hwf it hit).1]

theorem lowerStr_append_digits {base ds : List Char} (hd : ds.all pyIsDigit = true) :
    lowerStr (base ++ ' ' :: ds) = lowerStr base ++ ' ' :: ds := by
  simp only [lowerStr, List.map_append, List.map_cons]
  rw [show Char.toLower ' ' = ' ' from rfl, lowerStr_digits_map hd]

theorem numOf_of_lower_append {base n : List Char} (ds : List Char) (hds : ds ≠ [])
    (hd : ds.all pyIsDigit = true)
    (h : lowerStr n = lowerStr (base ++ ' ' :: ds)) : numOf base n = some (digitsToNat ds) := by
  apply numOf_some_iff.mpr
  refine ⟨ds, hds, hd, ?_, rfl⟩
  rw [h, lowerStr_append_digits hd]

/-- One allocation against an invariant-satisfying scope: the rename side
effect preserves the invariant, the returned name is well formed, and the
returned name is case-insensitively distinct from every name stored in the
scope after the rename. -/
theorem alloc_step_spec (items : List Item) (b : List Char) (h : Inv items) :
    Inv ((allocateMaterialName items b []).2) ∧
    wfName (allocateMaterialName items b []).1 ∧
    lowerStr (allocateMaterialName items b []).1 ∉
      ((allocateMaterialName items b []).2).map (fun it => lowerStr it.mat_partname) := by
  obtain ⟨hnd, hwf⟩ := h
  have hb1 := allocBase_headOk b
  have hb2 := allocBase_revHeadOk b
  have hb0 := allocBase_ne_nil b
  have hstrip : pystrip ([] : List Char) = [] := rfl
  by_cases hm : (matchedOf items (allocBase b) []).isEmpty = true
  · have hres : allocateMaterialName items b [] = (allocBase b, items) := by
      unfold allocateMaterialName
      simp only [hstrip]
      rw [if_pos hm]
    rw [hres]
    refine ⟨⟨hnd, hwf⟩, allocBase_wf b, ?_⟩
    intro hmem
    obtain ⟨y, hy, hylow⟩ := List.mem_map.mp hmem
    have hp : patMatch (allocBase b) y.mat_partname = true :=
      patMatch_iff.mpr (Or.inl hylow)
    have := matched_empty_not_match hm hy (keepItem_nil y)
    rw [hp] at this
    cases this
  · by_cases hn : (numbersOf items (allocBase b) []).isEmpty = true
    · have hres : allocateMaterialName items b [] =
          (allocBase b ++ ' ' :: ['2'],
           renameFirst items (renamePred (allocBase b) []) (allocBase b ++ ' ' :: ['1'])) := by
        unfold allocateMaterialName
        simp only [hstrip]
        rw [if_neg hm, if_pos hn]
      have F1 : ∀ it ∈ items, numOf (allocBase b) it.mat_partname = none :=
        fun it hit => numbers_empty_numOf hwf hn hit (keepItem_nil it)
      have G1 : ∀ y ∈ items,
          lowerStr y.mat_partname ≠ lowerStr (allocBase b ++ ' ' :: ['1']) := by
        intro y hy heq
        have := numOf_of_lower_append ['1'] (by decide) (by decide) heq
        rw [F1 y hy] at this
        cases this
      have G2 : ∀ y ∈ items,
          lowerStr y.mat_partname ≠ lowerStr (allocBase b ++ ' ' :: ['2']) := by
        intro y hy heq
        have := numOf_of_lower_append ['2'] (by decide) (by decide) heq
        rw [F1 y hy] at this
        cases this
      have hwf1 : wfName (allocBase b ++ ' ' :: ['1']) :=
        wf_base_append_digits hb1 hb0 (by decide) (by decide)
      have hwf2 : wfName (allocBase b ++ ' ' :: ['2']) :=
        wf_base_append_digits hb1 hb0 (by decide) (by decide)
      have hne12 : lowerStr (allocBase b ++ ' ' :: ['1']) ≠
          lowerStr (allocBase b ++ ' ' :: ['2']) := by
        rw [lowerStr_append_digits (by decide), lowerStr_append_digits (by decide)]
        intro hcontra
        have := List.append_cancel_left hcontra
        simp at this
      rw [hres]
      by_cases hfound : ∃ it ∈ items, renamePred (allocBase b) [] it = true
      · obtain ⟨l1, x, l2, heq, hl1, hpx, hres2⟩ := renameFirst_found hfound
        rw [hres2]
        subst heq
        refine ⟨⟨?_, ?_⟩, hwf2, ?_⟩
        · simp only [List.map_append, List.map_cons] at hnd ⊢
          rw [List.nodup_middle] at hnd ⊢
          rw [List.nodup_cons] at hnd ⊢
          refine ⟨?_, hnd.2⟩
          intro hmem
          rw [List.mem_append] at hmem
          rcases hmem with hmem | hmem
          · obtain ⟨y, hy, hylow⟩ := List.mem_map.mp hmem
            exact G1 y (List.mem_append.mpr (Or.inl hy)) hylow
          · obtain ⟨y, hy, hylow⟩ := List.mem_map.mp hmem
            exact G1 y (List.mem_append.mpr (Or.inr (List.mem_cons_of_mem _ hy))) hylow
        · intro it hit
          rw [List.mem_append, List.mem_cons] at hit
          rcases hit with hit | hit | hit
          · exact hwf it (List.mem_append.mpr (Or.inl hit))
          · subst hit
            exact hwf1
          · exact hwf it (List.mem_append.mpr (Or.inr (List.mem_cons_of_mem _ hit)))
        · intro hmem
          simp only [List.map_append, List.map_cons] at hmem
          rw [List.mem_append, List.mem_cons] at hmem
          rcases hmem with hmem | hmem | hmem
          · obtain ⟨y, hy, hylow⟩ := List.mem_map.mp hmem
            exact G2 y (List.mem_append.mpr (Or.inl hy)) hylow
          · exact hne12 hmem.symm
          · obtain ⟨y, hy, hylow⟩ := List.mem_map.mp hmem
            exact G2 y (List.mem_append.mpr (Or.inr (List.mem_cons_of_mem _ hy))) hylow
      · have hall : ∀ it ∈ items, renamePred (allocBase b) [] it = false := by
          intro it hit
          rw [Bool.eq_false_iff]
          intro hcontra
          exact hfound ⟨it, hit, hcontra⟩
        rw [renameFirst_not_found hall]
        refine ⟨⟨hnd, hwf⟩, hwf2, ?_⟩
        intro hmem
        obtain ⟨y, hy, hylow⟩ := List.mem_map.mp hmem
        exact G2 y hy hylow
    · have hres : allocateMaterialName items b [] =
          (allocBase b ++ ' ' ::
            natDigits ((numbersOf items (allocBase b) []).foldl Nat.max 0 + 1), items) := by
        unfold allocateMaterialName
        simp only [hstrip]
        rw [if_neg hm, if_neg hn]
      rw [hres]
      refine ⟨⟨hnd, hwf⟩, wf_base_append_digits hb1 hb0 (natDigits_ne_nil _)
        (natDigits_all_digit _), ?_⟩
      intro hmem
      obtain ⟨y, hy, hylow⟩ := List.mem_map.mp hmem
      have hnum : numOf (allocBase b) y.mat_partname =
          some ((numbersOf items (allocBase b) []).foldl Nat.max 0 + 1) := by
        have := numOf_of_lower_append (natDigits (_ + 1)) (natDigits_ne_nil _)
          (natDigits_all_digit _) hylow
        rwa [digitsToNat_natDigits] at this
      have hmemn := mem_numbers hwf hy (keepItem_nil y) hnum
      have := le_foldl_max hmemn 0
      omega

theorem Inv_allocStep (items : List Item) (r : List Char × List Char) (h : Inv items) :
    Inv (allocStep items r) := by
  obtain ⟨h1, h2, h3⟩ := alloc_step_spec items r.1 h
  obtain ⟨hnd, hwf⟩ := h1
  constructor
  · unfold allocStep
    rw [List.map_append]
    rw [List.nodup_append]
    refine ⟨hnd, by simp, ?_⟩
    intro x hx hx'
    simp only [List.map_cons, List.map_nil, List.mem_singleton] at hx'
    subst hx'
    exact h3 hx
  · intro it hit
    unfold allocStep at hit
    rw [List.mem_append, List.mem_singleton] at hit
    rcases hit with hit | hit
    · exact hwf it hit
    · subst hit
      exact h2

theorem Inv_runAlloc (items : List Item) (reqs : List (List Char × List Char)) (h : Inv items) :
    Inv (runAlloc items reqs) := by
  induction reqs generalizing items with
  | nil => exact h
  | cons r rs ih => exact ih _ (Inv_allocStep items r h)

/-- The name returned by one allocation is case-insensitively distinct from
every display name stored in the scope after the call's rename side effect. -/
def FreshReturn (items : List Item) (b : List Char) : Prop :=
  lowerStr (allocateMaterialName items b []).1 ∉
    ((allocateMaterialName items b []).2).map (fun it => lowerStr it.mat_partname)

/-- C1: for every sequence of `AllocateMaterialName` calls against one TEP
scope (each followed by storing the returned name on a new row, no
exclusions), the scope never holds two display names that are equal under
case-insensitive comparison, and each call's returned name is
case-insensitively distinct from every name stored after that call's rename
side effect.  (`Inv` states pairwise case-insensitive distinctness.) -/
theorem C1_alloc_uniqueness (items : List Item) (h : Inv items) :
    (∀ reqs : List (List Char × List Char), Inv (runAlloc items reqs)) ∧
    (∀ b : List Char, FreshReturn items b) :=
  ⟨fun reqs => Inv_runAlloc items reqs h, fun b => (alloc_step_spec items b h).2.2⟩

def demoReqs : List (List Char × List Char) :=
  [("TAPE".toList, "M1".toList), ("TAPE".toList, "M2".toList), ("TAPE".toList, "M3".toList)]

theorem C1_witness :
    Inv ([] : List Item) ∧ Inv (runAlloc [] demoReqs) ∧ FreshReturn [] "TAPE".toList :=
  ⟨by decide, (C1_alloc_uniqueness [] (by decide)).1 demoReqs,
    (C1_alloc_uniqueness [] (by decide)).2 "TAPE".toList⟩

/-- C2: with base `"TAPE"` on an initially empty scope, three sequential
allocate-and-store calls produce `"TAPE"`, then `"TAPE 2"` (the existing
row being renamed to `"TAPE 1"` during the second call, before it
returns), then `"TAPE 3"`. -/
theorem C2_numbering_sequence :
    (allocateMaterialName [] "TAPE".toList []).1 = "TAPE".toList ∧
    (allocateMaterialName [⟨"M1".toList, "TAPE".toList⟩] "TAPE".toList []).1 =
      "TAPE 2".toList ∧
    (allocateMaterialName [⟨"M1".toList, "TAPE".toList⟩] "TAPE".toList []).2 =
      [⟨"M1".toList, "TAPE 1".toList⟩] ∧
    (allocateMaterialName [⟨"M1".toList, "TAPE 1".toList⟩, ⟨"M2".toList, "TAPE 2".toList⟩]
      "TAPE".toList []).1 = "TAPE 3".toList ∧
    runAlloc [] [("TAPE".toList, "M1".toList), ("TAPE".toList, "M2".toList),
      ("TAPE".toList, "M3".toList)] =
      [⟨"M1".toList, "TAPE 1".toList⟩, ⟨"M2".toList, "TAPE 2".toList⟩,
       ⟨"M3".toList, "TAPE 3".toList⟩] := by
  decide

/-- C4: the base is matched as a literal: a name matches the allocator's
pattern exactly when, case-insensitively, it equals the base or equals the
base followed by one space and a digit run; regex metacharacters in the
base have no special meaning.  In particular, with base `"A.B"` an existing
row `"AXB"` is not a collision and the call returns `"A.B"` with no rename. -/
theorem C4_regex_literal :
    (∀ base n : List Char, patMatch base n = true ↔
      (lowerStr n = lowerStr base ∨
        ∃ ds : List Char, ds ≠ [] ∧ ds.all pyIsDigit = true ∧
          lowerStr n = lowerStr base ++ ' ' :: ds)) ∧
    patMatch "A.B".toList "AXB".toList = false ∧
    allocateMaterialName [⟨"P1".toList, "AXB".toList⟩] "A.B".toList [] =
      ("A.B".toList, [⟨"P1".toList, "AXB".toList⟩]) :=
  ⟨fun _ _ => patMatch_iff, by decide, by decide⟩

/-- C3 counterexample: with the call sequence bases `"TAPE"`, `"TAPE"`,
`"TAPE 1"` (each result stored), the item created first carries the names
`"TAPE"`, then `"TAPE 1"`, then `"TAPE 1 1"` — its display name is
rewritten by the allocator twice over its lifetime, contradicting the
claim's at-most-once rename for arbitrary call sequences. -/
theorem C3_counterexample :
    runAlloc [] [("TAPE".toList, "A".toList)] = [⟨"A".toList, "TAPE".toList⟩] ∧
    runAlloc [] [("TAPE".toList, "A".toList), ("TAPE".toList, "B".toList)] =
      [⟨"A".toList, "TAPE 1".toList⟩, ⟨"B".toList, "TAPE 2".toList⟩] ∧
    runAlloc [] [("TAPE".toList, "A".toList), ("TAPE".toList, "B".toList),
      ("TAPE 1".toList, "C".toList)] =
      [⟨"A".toList, "TAPE 1 1".toList⟩, ⟨"B".toList, "TAPE 2".toList⟩,
       ⟨"C".toList, "TAPE 1 2".toList⟩] := by
  decide

/-- Did this allocation perform its rename side effect (change the scope)? -/
def renameHappened (items : List Item) (b : List Char) : Bool :=
  decide ((allocateMaterialName items b []).2 ≠ items)

/-- Number of allocations in a fixed-base call sequence that perform the
rename side effect (each call's result stored before the next call). -/
def renameCount : List Item → List Char → List (List Char) → Nat
  | _, _, [] => 0
  | items, b, c :: cs =>
    (if renameHappened items b then 1 else 0) + renameCount (allocStep items (b, c)) b cs

/-- The scope already holds a numbered variant of the base. -/
def HasNumbered (items : List Item) (b : List Char) : Prop :=
  ∃ it ∈ items, numOf (allocBase b) it.mat_partname ≠ none

theorem hasNumbered_branch3 (items : List Item) (b : List Char) (h : HasNumbered items b) :
    allocateMaterialName items b [] =
      (allocBase b ++ ' ' ::
        natDigits ((numbersOf items (allocBase b) []).foldl Nat.max 0 + 1), items) := by
  obtain ⟨it, hit, hnum⟩ := h
  cases hn : numOf (allocBase b) it.mat_partname with
  | none => exact absurd hn hnum
  | some k =>
    have hp : patMatch (allocBase b) it.mat_partname = true := numOf_some_patMatch hn
    have hstrip : pystrip it.mat_partname = it.mat_partname :=
      matched_pystrip (allocBase_headOk b) (allocBase_revHeadOk b) (allocBase_ne_nil b) hp
    have hmem : it.mat_partname ∈ matchedOf items (allocBase b) [] :=
      name_mem_matched hit (keepItem_nil it) hp
    have hm : ¬(matchedOf items (allocBase b) []).isEmpty = true := by
      rw [List.isEmpty_iff]
      intro hc
      rw [hc] at hmem
      cases hmem
    have hkn : k ∈ numbersOf items (allocBase b) [] := by
      unfold numbersOf
      rw [List.mem_filterMap]
      exact ⟨it.mat_partname, hmem, by rwa [hstrip]⟩
    have hne : ¬(numbersOf items (allocBase b) []).isEmpty = true := by
      rw [List.isEmpty_iff]
      intro hc
      rw [hc] at hkn
      cases hkn
    unfold allocateMaterialName
    simp only [show pystrip ([] : List Char) = [] from rfl]
    rw [if_neg hm, if_neg hne]

theorem hasNumbered_allocStep (items : List Item) (b : List Char) (c : List Char)
    (h : HasNumbered items b) : HasNumbered (allocStep items (b, c)) b := by
  have hres := hasNumbered_branch3 items b h
  obtain ⟨it, hit, hnum⟩ := h
  unfold allocStep
  rw [hres]
  exact ⟨it, by rw [List.mem_append]; exact Or.inl hit, hnum⟩

theorem hasNumbered_noRename (items : List Item) (b : List Char) (h : HasNumbered items b) :
    renameHappened items b = false := by
  unfold renameHappened
  rw [hasNumbered_branch3 items b h]
  simp

theorem changed_hasNumbered (items : List Item) (b : List Char)
    (h : (allocateMaterialName items b []).2 ≠ items) :
    HasNumbered ((allocateMaterialName items b []).2) b := by
  have hstrip : pystrip ([] : List Char) = [] := rfl
  by_cases hm : (matchedOf items (allocBase b) []).isEmpty = true
  · exfalso
    apply h
    unfold allocateMaterialName
    simp only [hstrip]
    rw [if_pos hm]
  · by_cases hn : (numbersOf items (allocBase b) []).isEmpty = true
    · have hres : (allocateMaterialName items b []).2 =
          renameFirst items (renamePred (allocBase b) []) (allocBase b ++ ' ' :: ['1']) := by
        unfold allocateMaterialName
        simp only [hstrip]
        rw [if_neg hm, if_pos hn]
      by_cases hfound : ∃ it ∈ items, renamePred (allocBase b) [] it = true
      · obtain ⟨l1, x, l2, heq, hl1, hpx, hres2⟩ := renameFirst_found hfound
        rw [hres, hres2]
        refine ⟨{ x with mat_partname := allocBase b ++ ' ' :: ['1'] }, ?_, ?_⟩
        · rw [List.mem_append]
          exact Or.inr (List.mem_cons_self ..)
        · rw [numOf_of_lower_append ['1'] (by decide) (by decide) rfl]
          simp
      · exfalso
        apply h
        rw [hres]
        apply renameFirst_not_found
        intro it hit
        rw [Bool.eq_false_iff]
        intro hcontra
        exact hfound ⟨it, hit, hcontra⟩
    · exfalso
      apply h
      unfold allocateMaterialName
      simp only [hstrip]
      rw [if_neg hm, if_neg hn]

theorem hasNumbered_renameCount (items : List Item) (b : List Char)
    (codes : List (List Char)) (h : HasNumbered items b) :
    renameCount items b codes = 0 := by
  induction codes generalizing items with
  | nil => rfl
  | cons c cs ih =>
    rw [renameCount, hasNumbered_noRename items b h, if_neg (by simp)]
    rw [ih _ (hasNumbered_allocStep items b c h)]

theorem alloc_snd_map_code (items : List Item) (b e : List Char) :
    ((allocateMaterialName items b e).2).map (fun it => it.mat_partcode) =
      items.map fun it => it.mat_partcode := by
  unfold allocateMaterialName
  by_cases hm : (matchedOf items (allocBase b) (pystrip e)).isEmpty = true
  · rw [if_pos hm]
  · rw [if_neg hm]
    by_cases hn : (numbersOf items (allocBase b) (pystrip e)).isEmpty = true
    · rw [if_pos hn]
      exact renameFirst_map_code ..
    · rw [if_neg hn]

theorem runAlloc_map_code (items : List Item) (reqs : List (List Char × List Char)) :
    (runAlloc items reqs).map (fun it => it.mat_partcode) =
      items.map (fun it => it.mat_partcode) ++ reqs.map (fun r => r.2) := by
  induction reqs generalizing items with
  | nil => simp [runAlloc]
  | cons r rs ih =>
    show (runAlloc (allocStep items r) rs).map _ = _
    rw [ih]
    unfold allocStep
    rw [List.map_append, alloc_snd_map_code]
    simp

/-- C3 amended: in a call sequence that uses one fixed base, the allocator
performs its rename side effect at most once in total (hence no item's
display name is rewritten more than once); and no allocation sequence ever
changes any item's `mat_partcode` — the codes of a run are exactly the
original codes followed by the codes of the created rows. -/
theorem C3_rename_once (items : List Item) (b : List Char) (codes : List (List Char)) :
    renameCount items b codes ≤ 1 ∧
    ∀ reqs : List (List Char × List Char),
      (runAlloc items reqs).map (fun it => it.mat_partcode) =
        items.map (fun it => it.mat_partcode) ++ reqs.map (fun r => r.2) := by
  constructor
  · induction codes generalizing items with
    | nil => simp [renameCount]
    | cons c cs ih =>
      by_cases hch : renameHappened items b = true
      · rw [renameCount, hch, if_pos rfl]
        have hHN : HasNumbered ((allocateMaterialName items b []).2) b :=
          changed_hasNumbered items b (by simpa [renameHappened] using hch)
        have hHN2 : HasNumbered (allocStep items (b, c)) b := by
          obtain ⟨it, hit, hnum⟩ := hHN
          exact ⟨it, by unfold allocStep; rw [List.mem_append]; exact Or.inl hit, hnum⟩
        rw [hasNumbered_renameCount _ _ _ hHN2]
      · rw [Bool.not_eq_true] at hch
        rw [renameCount, hch, if_neg (by simp)]
        simpa using ih (allocStep items (b, c))
  · exact runAlloc_map_code items

/-! ### Customer parts: `_unique_partname_for_customer` / `_ensure_customer_part_entry`

`customer.parts` is a JSON list; entries that are not dicts are skipped by
the source (`isinstance(p, dict)`), modelled by the `nondict` constructor.
A missing `Partcode`/`Partname` key yields `""` after `_normalize_space`,
so an entry is modelled by its two string fields. -/

inductive PEntry
  | nondict
  | entry (partcode partname : List Char)
deriving DecidableEq

/-- Code test `_normalize_space(p.get("Partcode")) == part_code` for a dict entry. -/
def entryCodeMatches (code : List Char) (p : PEntry) : Bool :=
  match p with
  | .nondict => false
  | .entry c _ => decide (normSpace c = code)

def entryNameOf (p : PEntry) : List Char :=
  match p with
  | .nondict => []
  | .entry _ n => n

/-- Model of `existing_names`: the set of lowercased, normalized, nonempty part
names of the scope (membership in the list models membership in the set). -/
def existingNames (parts : List PEntry) : List (List Char) :=
  parts.filterMap fun p =>
    match p with
    | .nondict => none
    | .entry _ pn => if normSpace pn = [] then none else some (lowerStr (normSpace pn))

/-- The `while True` suffix loop (`base 1`, `base 2`, …), with an explicit
iteration bound; `none` means the bound was exhausted (shown unreachable
for the bound `used.length + 1` by `C10_suffix_search_terminates`). -/
def findFree (base : List Char) (used : List (List Char)) : Nat → Nat → Option (List Char)
  | 0, _ => none
  | fuel + 1, i =>
    if lowerStr (base ++ ' ' :: natDigits i) ∈ used then findFree base used fuel (i + 1)
    else some (base ++ ' ' :: natDigits i)

/-- Model of `_unique_partname_for_customer`. -/
def uniquePartnameForCustomer (parts : List PEntry) (base_name part_code : List Char) :
    List Char :=
  let base := normSpace base_name
  let code := normSpace part_code
  match parts.find? (entryCodeMatches code) with
  | some p => pyor (normSpace (entryNameOf p)) base
  | none =>
    let used := existingNames parts
    if lowerStr base ∈ used then
      match findFree base used (used.length + 1) 1 with
      | some c => c
      | none => base
    else base

/-- Model of `_ensure_customer_part_entry`: returns `(changed, used_partname, parts)`
with the state of the customer's parts list after the call. -/
def ensureCustomerPartEntry (parts : List PEntry) (part_code part_name : List Char) :
    Bool × List Char × List PEntry :=
  let code := normSpace part_code
  let name := pyor (normSpace part_name) code
  match parts.find? (entryCodeMatches code) with
  | some p => (false, pyor (normSpace (entryNameOf p)) name, parts)
  | none =>
    let uname := uniquePartnameForCustomer parts name code
    (true, uname, parts ++ [.entry code uname])

theorem findFree_finds (base : List Char) (used : List (List Char)) :
    ∀ fuel start : Nat,
      (∃ j, j < fuel ∧ lowerStr (base ++ ' ' :: natDigits (start + j)) ∉ used) →
      ∃ c, findFree base used fuel start = some c ∧ lowerStr c ∉ used := by
  intro fuel
  induction fuel with
  | zero =>
    rintro start ⟨j, hj, _⟩
    omega
  | succ f ih =>
    rintro start ⟨j, hj, hfree⟩
    by_cases hin : lowerStr (base ++ ' ' :: natDigits start) ∈ used
    · rw [findFree, if_pos hin]
      apply ih (start + 1)
      cases j with
      | zero => exact absurd (by simpa using hin) (by simpa using hfree)
      | succ j' =>
        refine ⟨j', by omega, ?_⟩
        have : start + 1 + j' = start + (j' + 1) := by omega
        rw [this]
        exact hfree
    · rw [findFree, if_neg hin]
      exact ⟨_, rfl, hin⟩

theorem exists_free_cand (base : List Char) (used : List (List Char)) :
    ∃ j, j < used.length + 1 ∧ lowerStr (base ++ ' ' :: natDigits (1 + j)) ∉ used := by
  by_contra hcon
  push_neg at hcon
  have hinj : Function.Injective (fun k : Nat => lowerStr (base ++ ' ' :: natDigits (1 + k))) := by
    intro a b hab
    simp only at hab
    rw [lowerStr_append_digits (natDigits_all_digit _),
      lowerStr_append_digits (natDigits_all_digit _)] at hab
    have h1 := List.append_cancel_left hab
    rw [List.cons_eq_cons] at h1
    have := natDigits_inj h1.2
    omega
  have hnd : ((List.range (used.length + 1)).map
      (fun k => lowerStr (base ++ ' ' :: natDigits (1 + k)))).Nodup :=
    (List.nodup_range _).map hinj
  have hsub : ∀ x ∈ (List.range (used.length + 1)).map
      (fun k => lowerStr (base ++ ' ' :: natDigits (1 + k))), x ∈ used := by
    intro x hx
    obtain ⟨k, hk, rfl⟩ := List.mem_map.mp hx
    exact hcon k (List.mem_range.mp hk)
  have h1 : ((List.range (used.length + 1)).map
      (fun k => lowerStr (base ++ ' ' :: natDigits (1 + k)))).toFinset.card =
      used.length + 1 := by
    rw [List.toFinset_card_of_nodup hnd]
    simp
  have h2 : ((List.range (used.length + 1)).map
      (fun k => lowerStr (base ++ ' ' :: natDigits (1 + k)))).toFinset ⊆ used.toFinset := by
    intro x hx
    rw [List.mem_toFinset] at hx ⊢
    exact hsub x hx
  have h3 := Finset.card_le_card h2
  have h4 : used.toFinset.card ≤ used.length := List.toFinset_card_le used
  omega

/-- C10: the customer-part suffix search terminates — searching candidates
`base 1`, `base 2`, … against any finite collection of used names finds an
unused candidate within `used.length + 1` iterations (the bound the
embedding uses as fuel; `used` has at most one entry per existing part). -/
theorem C10_suffix_search_terminates (base : List Char) (used : List (List Char)) :
    ∃ c, findFree base used (used.length + 1) 1 = some c ∧ lowerStr c ∉ used := by
  obtain ⟨j, hj, hfree⟩ := exists_free_cand base used
  exact findFree_finds base used (used.length + 1) 1 ⟨j, hj, hfree⟩

theorem mem_existingNames_ne_nil {parts : List PEntry} {x : List Char}
    (h : x ∈ existingNames parts) : x ≠ [] := by
  unfold existingNames at h
  rw [List.mem_filterMap] at h
  obtain ⟨p, hp, hx⟩ := h
  cases p with
  | nondict => cases hx
  | entry c pn =>
    simp only at hx
    split at hx
    · cases hx
    · rename_i hne
      rw [Option.some_inj] at hx
      subst hx
      intro hcon
      unfold lowerStr at hcon
      rw [List.map_eq_nil_iff] at hcon
      exact hne hcon

theorem findFree_shape (base : List Char) (used : List (List Char)) :
    ∀ fuel i : Nat, ∀ c : List Char, findFree base used fuel i = some c →
      ∃ k, c = base ++ ' ' :: natDigits k := by
  intro fuel
  induction fuel with
  | zero =>
    intro i c h
    cases h
  | succ f ih =>
    intro i c h
    rw [findFree] at h
    split at h
    · exact ih _ _ h
    · exact ⟨i, (Option.some_inj.mp h).symm⟩

theorem uniquePartname_cases (parts : List PEntry) (nm code : List Char) :
    uniquePartnameForCustomer parts nm code = normSpace nm ∨
    (∃ p : PEntry, uniquePartnameForCustomer parts nm code = normSpace (entryNameOf p) ∧
      normSpace (entryNameOf p) ≠ []) ∨
    (∃ ds : List Char, ds ≠ [] ∧ ds.all pyIsDigit = true ∧
      uniquePartnameForCustomer parts nm code = normSpace nm ++ ' ' :: ds ∧
      normSpace nm ≠ []) := by
  simp only [uniquePartnameForCustomer]
  cases hf : parts.find? (entryCodeMatches (normSpace code)) with
  | some p =>
    simp only []
    unfold pyor
    by_cases hne : normSpace (entryNameOf p) = []
    · rw [if_pos hne]
      exact Or.inl rfl
    · rw [if_neg hne]
      exact Or.inr (Or.inl ⟨p, rfl, hne⟩)
  | none =>
    simp only []
    by_cases hin : lowerStr (normSpace nm) ∈ existingNames parts
    · rw [if_pos hin]
      cases hff : findFree (normSpace nm) (existingNames parts)
          ((existingNames parts).length + 1) 1 with
      | none => exact Or.inl rfl
      | some c =>
        obtain ⟨k, hk⟩ := findFree_shape _ _ _ _ _ hff
        refine Or.inr (Or.inr ⟨natDigits k, natDigits_ne_nil k, natDigits_all_digit k, hk, ?_⟩)
        intro hcon
        apply mem_existingNames_ne_nil hin
        rw [hcon]
        rfl
    · rw [if_neg hin]
      exact Or.inl rfl

theorem uniquePartname_props (parts : List PEntry) (nm code : List Char)
    (hnm : normSpace nm = nm) :
    normSpace (uniquePartnameForCustomer parts nm code) =
      uniquePartnameForCustomer parts nm code ∧
    (uniquePartnameForCustomer parts nm code = [] →
      uniquePartnameForCustomer parts nm code = nm) := by
  rcases uniquePartname_cases parts nm code with h | ⟨p, h, hne⟩ | ⟨ds, hds, hdig, h, hbne⟩
  · rw [h, hnm]
    exact ⟨hnm, fun _ => rfl⟩
  · rw [h]
    exact ⟨normSpace_idem _, fun hc => absurd hc hne⟩
  · rw [h]
    refine ⟨normSpace_append_digits nm ds hbne hds hdig, ?_⟩
    intro hc
    exact absurd hc (by simp)

theorem pyor_self_of_normal {u nm : List Char} (hu : normSpace u = u)
    (hnil : u = [] → u = nm) : pyor (normSpace u) nm = u := by
  unfold pyor
  rw [hu]
  split
  · rename_i h
    exact (hnil h).symm
  · rfl

/-- C5: re-declaring the same `(part_code, part_name)` right after a first
`EnsureCustomerPart` call reports no change, returns the same final name as
the first call, and leaves the customer's parts list unchanged. -/
theorem C5_idempotent_redeclare (parts : List PEntry) (part_code part_name : List Char) :
    (ensureCustomerPartEntry
        (ensureCustomerPartEntry parts part_code part_name).2.2 part_code part_name).1 = false ∧
    (ensureCustomerPartEntry
        (ensureCustomerPartEntry parts part_code part_name).2.2 part_code part_name).2.1 =
      (ensureCustomerPartEntry parts part_code part_name).2.1 ∧
    (ensureCustomerPartEntry
        (ensureCustomerPartEntry parts part_code part_name).2.2 part_code part_name).2.2 =
      (ensureCustomerPartEntry parts part_code part_name).2.2 := by
  cases hfind : parts.find? (entryCodeMatches (normSpace part_code)) with
  | some p =>
    have hr1 : ensureCustomerPartEntry parts part_code part_name =
        (false, pyor (normSpace (entryNameOf p))
          (pyor (normSpace part_name) (normSpace part_code)), parts) := by
      simp only [ensureCustomerPartEntry]
      rw [hfind]
    rw [hr1]
    simp only []
    rw [hr1]
    exact ⟨rfl, rfl, rfl⟩
  | none =>
    have hnameN : normSpace (pyor (normSpace part_name) (normSpace part_code)) =
        pyor (normSpace part_name) (normSpace part_code) := by
      unfold pyor
      split
      · exact normSpace_idem part_code
      · exact normSpace_idem part_name
    have hprops := uniquePartname_props parts (pyor (normSpace part_name) (normSpace part_code))
      (normSpace part_code) hnameN
    have hr1 : ensureCustomerPartEntry parts part_code part_name =
        (true,
         uniquePartnameForCustomer parts (pyor (normSpace part_name) (normSpace part_code))
           (normSpace part_code),
         parts ++ [PEntry.entry (normSpace part_code)
           (uniquePartnameForCustomer parts (pyor (normSpace part_name) (normSpace part_code))
             (normSpace part_code))]) := by
      simp only [ensureCustomerPartEntry]
      rw [hfind]
    have hmatch : entryCodeMatches (normSpace part_code)
        (PEntry.entry (normSpace part_code)
          (uniquePartnameForCustomer parts (pyor (normSpace part_name) (normSpace part_code))
            (normSpace part_code))) = true := by
      show decide (normSpace (normSpace part_code) = normSpace part_code) = true
      rw [decide_eq_true_eq]
      exact normSpace_idem part_code
    have hfind2 : (parts ++ [PEntry.entry (normSpace part_code)
        (uniquePartnameForCustomer parts (pyor (normSpace part_name) (normSpace part_code))
          (normSpace part_code))]).find? (entryCodeMatches (normSpace part_code)) =
        some (PEntry.entry (normSpace part_code)
          (uniquePartnameForCustomer parts (pyor (normSpace part_name) (normSpace part_code))
            (normSpace part_code))) := by
      rw [List.find?_append, hfind, List.find?_cons_of_pos _ hmatch]
      rfl
    have hr2 : ensureCustomerPartEntry (parts ++ [PEntry.entry (normSpace part_code)
        (uniquePartnameForCustomer parts (pyor (normSpace part_name) (normSpace part_code))
          (normSpace part_code))]) part_code part_name =
        (false,
         pyor (normSpace (uniquePartnameForCustomer parts
             (pyor (normSpace part_name) (normSpace part_code)) (normSpace part_code)))
           (pyor (normSpace part_name) (normSpace part_code)),
         parts ++ [PEntry.entry (normSpace part_code)
           (uniquePartnameForCustomer parts (pyor (normSpace part_name) (normSpace part_code))
             (normSpace part_code))]) := by
      simp only [ensureCustomerPartEntry]
      rw [hfind2]
      rfl
    rw [hr1]
    simp only []
    rw [hr2]
    refine ⟨rfl, ?_, rfl⟩
    exact pyor_self_of_normal hprops.1 hprops.2

/-! ### Month-token parsing (`_month_index_from_string`) -/

def monthsFull : List (List Char) :=
  ["january".toList, "february".toList, "march".toList, "april".toList, "may".toList,
   "june".toList, "july".toList, "august".toList, "september".toList, "october".toList,
   "november".toList, "december".toList]

def monthsAbbr : List (List Char) :=
  ["jan".toList, "feb".toList, "mar".toList, "apr".toList, "may".toList, "jun".toList,
   "jul".toList, "aug".toList, "sep".toList, "oct".toList, "nov".toList, "dec".toList]

/-- First index (0-based) of a name with
`lower.startswith(name) or lower == name`. -/
def firstHit (names : List (List Char)) (l : List Char) : Option Nat :=
  match names with
  | [] => none
  | a :: rest =>
    if a.isPrefixOf l || decide (l = a) then some 0
    else (firstHit rest l).map fun k => k + 1

/-- Python `s.split(sep)`: the list of segments between occurrences of `sep`. -/
def pySplit (sep : Char) : List Char → List (List Char)
  | [] => [[]]
  | c :: rest =>
    if c = sep then [] :: pySplit sep rest
    else
      match pySplit sep rest with
      | [] => [[c]]
      | seg :: more => (c :: seg) :: more

/-- Digit run with single internal underscores, the body accepted by `int`. -/
def intBody : List Char → Bool
  | [] => false
  | [c] => pyIsDigit c
  | c :: d :: rest =>
    pyIsDigit c && (if d = '_' then intBody rest else intBody (d :: rest))

/-- Python `int` on a string: optional surrounding whitespace, optional
sign, then a digit run with optional single underscores between digits. -/
def pyInt (l : List Char) : Option Int :=
  match pystrip l with
  | '+' :: rest =>
    if intBody rest then some (Int.ofNat (digitsToNat (rest.filter fun c => c ≠ '_'))) else none
  | '-' :: rest =>
    if intBody rest then some (-Int.ofNat (digitsToNat (rest.filter fun c => c ≠ '_'))) else none
  | rest =>
    if intBody rest then some (Int.ofNat (digitsToNat (rest.filter fun c => c ≠ '_'))) else none

/-- Model of `_month_index_from_string`: month abbreviation prefix, then full month
name prefix, then the numeric fallback; `none` is "unparseable". -/
def monthIndexFromString (val : List Char) : Option Nat :=
  if val = [] then none
  else
    let s := pystrip val
    if s = [] then none
    else
      match firstHit monthsAbbr (lowerStr s) with
      | some i => some (i + 1)
      | none =>
        match firstHit monthsFull (lowerStr s) with
        | some i => some (i + 1)
        | none =>
          let head := if '-' ∈ s then (pySplit '-' s).headD []
                      else if '/' ∈ s then (pySplit '/' s).headD []
                      else s
          match pyInt head with
          | some n => if 1 ≤ n ∧ n ≤ 12 then some n.toNat else none
          | none => none

/-- C6: `ResolveMonthIndex` maps `"Jan-2026"` to 1 and `"december"` to 12,
and maps `"13"` and `""` to the unparseable value (`none`). -/
theorem C6_month_examples :
    monthIndexFromString "Jan-2026".toList = some 1 ∧
    monthIndexFromString "december".toList = some 12 ∧
    monthIndexFromString "13".toList = none ∧
    monthIndexFromString "".toList = none := by
  decide

/-- Left segment exactly as the source computes it: split on `-` whenever a
dash occurs anywhere in the token, otherwise on `/`, otherwise whole token. -/
def dashFirstHead (s : List Char) : List Char :=
  if '-' ∈ s then s.takeWhile (fun c => c ≠ '-')
  else if '/' ∈ s then s.takeWhile (fun c => c ≠ '/')
  else s

/-- Numeric fallback as the source computes it. -/
def dashFirstFallback (s : List Char) : Option Nat :=
  match pyInt (dashFirstHead s) with
  | some n => if 1 ≤ n ∧ n ≤ 12 then some n.toNat else none
  | none => none

/-- Left segment as the claim words it: cut at the first occurrence of
either `-` or `/`, whichever delimiter appears first in the string. -/
def specFirstDelimHead (s : List Char) : List Char :=
  s.takeWhile fun c => ¬(c = '-' ∨ c = '/')

/-- Numeric fallback as the claim words it. -/
def specNumericFallback (s : List Char) : Option Nat :=
  match pyInt (specFirstDelimHead s) with
  | some n => if 1 ≤ n ∧ n ≤ 12 then some n.toNat else none
  | none => none

/-- C7 counterexample: on `"3/4-5"` both month-name rules fail, the
claim's split-at-first-delimiter fallback accepts 3, but the code splits
at the dash regardless of the earlier slash, tries `int("3/4")`, and
reports unparseable. -/
theorem C7_counterexample :
    firstHit monthsAbbr (lowerStr (pystrip "3/4-5".toList)) = none ∧
    firstHit monthsFull (lowerStr (pystrip "3/4-5".toList)) = none ∧
    specNumericFallback (pystrip "3/4-5".toList) = some 3 ∧
    monthIndexFromString "3/4-5".toList = none := by
  decide

theorem pySplit_ne_nil (sep : Char) : ∀ l : List Char, pySplit sep l ≠ []
  | [] => by simp [pySplit]
  | c :: rest => by
    rw [pySplit]
    split
    · simp
    · split
      · simp
      · simp

theorem pySplit_headD (sep : Char) (l : List Char) :
    (pySplit sep l).headD [] = l.takeWhile fun c => c ≠ sep := by
  induction l with
  | nil => rfl
  | cons c rest ih =>
    rw [List.takeWhile_cons]
    by_cases hc : c = sep
    · subst hc
      rw [pySplit, if_pos rfl, if_neg (by simp)]
      rfl
    · rw [pySplit, if_neg hc, if_pos (by simp [hc])]
      cases hps : pySplit sep rest with
      | nil => exact absurd hps (pySplit_ne_nil sep rest)
      | cons seg more =>
        rw [hps] at ih
        simp only [List.headD_cons] at ih ⊢
        rw [ih]

/-- C7 amended: for every token on which both the abbreviation rule and
the full-name rule fail, the resolver equals the numeric fallback that
splits at the first `-` when the token contains a dash anywhere, else at
the first `/` when it contains a slash, else parses the whole token, and
accepts only values in `[1, 12]`. -/
theorem C7_numeric_fallback (v : List Char)
    (h1 : firstHit monthsAbbr (lowerStr (pystrip v)) = none)
    (h2 : firstHit monthsFull (lowerStr (pystrip v)) = none) :
    monthIndexFromString v = dashFirstFallback (pystrip v) := by
  simp only [monthIndexFromString]
  by_cases hv : v = []
  · rw [if_pos hv]
    subst hv
    decide
  · rw [if_neg hv]
    by_cases hs : pystrip v = []
    · rw [if_pos hs, hs]
      decide
    · rw [if_neg hs, h1, h2]
      have hhead : (if '-' ∈ pystrip v then (pySplit '-' (pystrip v)).headD []
          else if '/' ∈ pystrip v then (pySplit '/' (pystrip v)).headD []
          else pystrip v) = dashFirstHead (pystrip v) := by
        unfold dashFirstHead
        by_cases h3 : '-' ∈ pystrip v
        · rw [if_pos h3, if_pos h3, pySplit_headD]
        · rw [if_neg h3, if_neg h3]
          by_cases h4 : '/' ∈ pystrip v
          · rw [if_pos h4, if_pos h4, pySplit_headD]
          · rw [if_neg h4, if_neg h4]
      rw [hhead]
      rfl

theorem C7_witness :
    firstHit monthsAbbr (lowerStr (pystrip "3-2026".toList)) = none ∧
    firstHit monthsFull (lowerStr (pystrip "3-2026".toList)) = none ∧
    monthIndexFromString "3-2026".toList = dashFirstFallback (pystrip "3-2026".toList) :=
  ⟨by decide, by decide, C7_numeric_fallback "3-2026".toList (by decide) (by decide)⟩

/-! ### Forecast rows, range totals, and labels -/

/-- One entry of `monthly_forecasts`.  A `none` field models a JSON value
on which `float(x or 0)` raises (the `try/except` then skips the row);
the row list element itself is `Option MRow`, with `none` for a non-dict
entry (`isinstance` check). -/
structure MRow where
  date : List Char
  unit_price : Option ℚ
  quantity : Option ℚ
deriving DecidableEq

/-- Model of `_range_totals`: accumulate `(total_qty, total_amt)` over rows whose
resolved month index lies in the inclusive window. -/
def rangeTotals (rows : List (Option MRow)) (from_idx to_idx : Option Nat) : ℚ × ℚ :=
  match from_idx, to_idx with
  | some fi, some ti =>
    rows.foldl (fun acc r =>
      match r with
      | none => acc
      | some m =>
        match monthIndexFromString m.date with
        | none => acc
        | some mi =>
          if fi ≤ mi ∧ mi ≤ ti then
            match m.quantity, m.unit_price with
            | some q, some p => (acc.1 + q, acc.2 + p * q)
            | _, _ => acc
          else acc) ((0 : ℚ), (0 : ℚ))
  | _, _ => ((0 : ℚ), (0 : ℚ))

def monthNamesCap : List (List Char) :=
  ["January".toList, "February".toList, "March".toList, "April".toList, "May".toList,
   "June".toList, "July".toList, "August".toList, "September".toList, "October".toList,
   "November".toList, "December".toList]

def monthNamesUpper : List (List Char) :=
  ["JANUARY".toList, "FEBRUARY".toList, "MARCH".toList, "APRIL".toList, "MAY".toList,
   "JUNE".toList, "JULY".toList, "AUGUST".toList, "SEPTEMBER".toList, "OCTOBER".toList,
   "NOVEMBER".toList, "DECEMBER".toList]

/-- Name one row contributes to the record-set month label: the full month
name when its token resolves, otherwise the raw token, stripped. -/
def rowLabelName (m : MRow) : List Char :=
  match monthIndexFromString m.date with
  | some idx => if 1 ≤ idx ∧ idx ≤ 12 then monthNamesCap.getD (idx - 1) [] else pystrip m.date
  | none => pystrip m.date

/-- Accumulator of `_months_label_from_rows`; `acc` is the reversed list of
names emitted so far and doubles as the `seen` set. -/
def monthsNamesGo : List (Option MRow) → List (List Char) → List (List Char)
  | [], acc => acc.reverse
  | none :: rest, acc => monthsNamesGo rest acc
  | some m :: rest, acc =>
    if rowLabelName m ≠ [] ∧ rowLabelName m ∉ acc then monthsNamesGo rest (rowLabelName m :: acc)
    else monthsNamesGo rest acc

def monthsNames (rows : List (Option MRow)) : List (List Char) :=
  monthsNamesGo rows []

/-- Model of `", ".join`. -/
def joinComma : List (List Char) → List Char
  | [] => []
  | [x] => x
  | x :: y :: rest => x ++ ',' :: ' ' :: joinComma (y :: rest)

/-- Model of `_months_label_from_rows`. -/
def monthsLabelFromRows (rows : List (Option MRow)) : List Char :=
  if monthsNames rows = [] then "—".toList else joinComma (monthsNames rows)

/-- The dashboard's selected-range computation: resolve both endpoint
tokens (an empty token resolves to `None`), require both, swap a
descending pair, and produce the `"X to Y"` label plus `_range_totals`. -/
def aggregateRange (rows : List (Option MRow)) (from_month to_month : List Char) :
    Option (List Char × ℚ × ℚ) :=
  let from_idx := if from_month ≠ [] then monthIndexFromString from_month else none
  let to_idx := if to_month ≠ [] then monthIndexFromString to_month else none
  match from_idx, to_idx with
  | some a, some b =>
    let lo := if b < a then b else a
    let hi := if b < a then a else b
    some (monthNamesUpper.getD (lo - 1) [] ++ " to ".toList ++ monthNamesUpper.getD (hi - 1) [],
      rangeTotals rows (some lo) (some hi))
  | _, _ => none

/-- C8: the endpoint pair is an unordered window — `AggregateRange` with
the endpoints given in either order returns identical totals and label,
because a descending pair is swapped before aggregating. -/
theorem C8_range_swap (rows : List (Option MRow)) (a b : List Char) :
    aggregateRange rows a b = aggregateRange rows b a := by
  unfold aggregateRange
  cases hfa : (if a ≠ [] then monthIndexFromString a else none) with
  | none =>
    cases hfb : (if b ≠ [] then monthIndexFromString b else none) with
    | none => rfl
    | some nb => rfl
  | some na =>
    cases hfb : (if b ≠ [] then monthIndexFromString b else none) with
    | none => rfl
    | some nb =>
      simp only []
      have hlo : (if nb < na then nb else na) = (if na < nb then na else nb) := by
        rcases Nat.lt_trichotomy na nb with h | h | h
        · rw [if_neg (by omega), if_pos h]
        · subst h
          simp
        · rw [if_pos h, if_neg (by omega)]
      have hhi : (if nb < na then na else nb) = (if na < nb then nb else na) := by
        rcases Nat.lt_trichotomy na nb with h | h | h
        · rw [if_neg (by omega), if_pos h]
        · subst h
          simp
        · rw [if_pos h, if_neg (by omega)]
      rw [hlo, hhi]

theorem monthsNamesGo_mem_acc {x : List Char} :
    ∀ (rows : List (Option MRow)) (acc : List (List Char)),
      x ∈ acc → x ∈ monthsNamesGo rows acc
  | [], acc, hx => by
    rw [monthsNamesGo]
    simpa using hx
  | none :: rest, acc, hx => by
    rw [monthsNamesGo]
    exact monthsNamesGo_mem_acc rest acc hx
  | some m :: rest, acc, hx => by
    rw [monthsNamesGo]
    split
    · exact monthsNamesGo_mem_acc rest _ (List.mem_cons_of_mem _ hx)
    · exact monthsNamesGo_mem_acc rest acc hx

theorem monthsNamesGo_mem_name (m : MRow) (hname : rowLabelName m ≠ []) :
    ∀ (pre post : List (Option MRow)) (acc : List (List Char)),
      rowLabelName m ∈ monthsNamesGo (pre ++ some m :: post) acc
  | [], post, acc => by
    rw [List.nil_append, monthsNamesGo]
    split
    · exact monthsNamesGo_mem_acc post _ (List.mem_cons_self ..)
    · rename_i hcond
      have hin : rowLabelName m ∈ acc := by
        by_contra hno
        exact hcond ⟨hname, hno⟩
      exact monthsNamesGo_mem_acc post acc hin
  | (none :: pre), post, acc => by
    rw [List.cons_append, monthsNamesGo]
    exact monthsNamesGo_mem_name m hname pre post acc
  | (some m' :: pre), post, acc => by
    rw [List.cons_append, monthsNamesGo]
    split
    · exact monthsNamesGo_mem_name m hname pre post _
    · exact monthsNamesGo_mem_name m hname pre post acc

/-- C9 amended: a record whose date token is unparseable contributes
nothing to `_range_totals` (no error is raised — the record is skipped),
and its raw stripped token, when nonempty, appears in the record-set month
label names (passed through, not excluded). -/
theorem C9_skip_unparseable (pre post : List (Option MRow)) (m : MRow)
    (fi ti : Option Nat) (h : monthIndexFromString m.date = none) :
    rangeTotals (pre ++ some m :: post) fi ti = rangeTotals (pre ++ post) fi ti ∧
    (pystrip m.date ≠ [] → pystrip m.date ∈ monthsNames (pre ++ some m :: post)) := by
  constructor
  · cases fi with
    | none => rfl
    | some fiv =>
      cases ti with
      | none => rfl
      | some tiv =>
        simp only [rangeTotals]
        rw [List.foldl_append, List.foldl_append, List.foldl_cons]
        congr 1
        simp [h]
  · intro hne
    have hrn : rowLabelName m = pystrip m.date := by
      unfold rowLabelName
      rw [h]
    have hname : rowLabelName m ≠ [] := by
      rw [hrn]
      exact hne
    have hmem := monthsNamesGo_mem_name m hname pre post []
    unfold monthsNames
    rw [← hrn]
    exact hmem

theorem C9_witness :
    monthIndexFromString ("???".toList) = none ∧
    (rangeTotals [some ⟨"???".toList, some 10, some 5⟩,
        some ⟨"Jan-2026".toList, some 2, some 3⟩] (some 1) (some 12) =
      rangeTotals [some ⟨"Jan-2026".toList, some 2, some 3⟩] (some 1) (some 12) ∧
     (pystrip "???".toList ≠ [] →
       pystrip "???".toList ∈ monthsNames [some ⟨"???".toList, some 10, some 5⟩,
         some ⟨"Jan-2026".toList, some 2, some 3⟩])) :=
  ⟨by decide, C9_skip_unparseable [] [some ⟨"Jan-2026".toList, some 2, some 3⟩]
    ⟨"???".toList, some 10, some 5⟩ (some 1) (some 12) (by decide)⟩

/-- C9 counterexample: the record with unparseable token `"???"` is indeed
skipped by aggregation, but its raw token is passed through into the
generated month label instead of being excluded: the label of the
single-record list is exactly `"???"`. -/
theorem C9_counterexample :
    rangeTotals [some ⟨"???".toList, some 10, some 5⟩] (some 1) (some 12) = (0, 0) ∧
    monthsLabelFromRows [some ⟨"???".toList, some 10, some 5⟩] = "???".toList := by
  decide

end TELS
